import Mathlib

/-!
Verification of `dot_product` from `3_CythonMultiprocessing/answers/my_dot.c`:

```c
double dot_product(double v[], double u[], int n)
{
    double result = 0.0;
    for (int i = 0; i < n; i++)
        result += v[i]*u[i];
    return result;
}
```

The development has three layers:

* `Double`: IEEE-754 binary64 values with round-to-nearest-even `add` and `mul`,
  the arithmetic of the C type `double` when every operation is rounded on its
  own (no fused multiply-add, no extended intermediate precision);
* `Frame`, `iter`, `loop`, `dot_product_run`, `dot_product`: the C function as a
  state-passing loop over the two arrays of the caller, with out-of-bounds reads
  and signed overflow of `i++` as explicit faults;
* the theorems about them.
-/

set_option exponentiation.threshold 10000

namespace MyDot

/-! ## IEEE-754 binary64 -/

/-- A binary64 value. A finite value is a sign and a magnitude counted in units
of `2^-1074` (the smallest subnormal), so `1.0` is `fin false (2^1074)`; the two
zeros are `fin false 0` and `fin true 0`. All NaNs are one value (payloads are
not tracked). -/
inductive Double where
  | nan : Double
  | inf (neg : Bool) : Double
  | fin (neg : Bool) (k : Nat) : Double
  deriving DecidableEq, Repr

namespace Double

/-- Binary search for the number of binary digits: with `j` levels left and
`n < 2^(2^j)`, returns `acc` plus the number of binary digits of `n`. -/
def bitLengthAux : Nat → Nat → Nat → Nat
  | 0, n, acc => if n = 0 then acc else acc + 1
  | j + 1, n, acc =>
    if 2 ^ 2 ^ j ≤ n then bitLengthAux j (n / 2 ^ 2 ^ j) (acc + 2 ^ j)
    else bitLengthAux j n acc

/-- Number of binary digits of `n` (`0` for `0`). Exact sums and products of
binary64 magnitudes are below `2^4196`, well inside the range of the search. -/
def bitLength (n : Nat) : Nat :=
  if n < 2 ^ 8192 then bitLengthAux 13 n 0 else Nat.log2 n + 1

/-- Round the exact magnitude `N / 2^s` (in units of `2^-1074`) to the nearest
magnitude with at most 53 significant bits, ties to even. The result is again in
units of `2^-1074`. -/
def roundMag (N s : Nat) : Nat :=
  let sh := max s (bitLength N - 53)
  let q := N / 2 ^ sh
  let r := N % 2 ^ sh
  let up : Bool := decide (2 ^ sh < 2 * r) || (decide (2 * r = 2 ^ sh) && decide (q % 2 = 1))
  (if up then q + 1 else q) * 2 ^ (sh - s)

/-- First magnitude beyond the finite range: `2^1024` in units of `2^-1074`. -/
def overflowMag : Nat := 2 ^ 2098

/-- Round `N / 2^s` units with the given sign to a binary64 value; magnitudes that
round to `2^1024` or more become an infinity. -/
def roundFin (neg : Bool) (N s : Nat) : Double :=
  let k := roundMag N s
  if k < overflowMag then fin neg k else inf neg

/-- The C literal `0.0`. -/
def zero : Double := fin false 0

/-- Binary64 multiplication, round to nearest even. -/
def mul : Double → Double → Double
  | nan, _ => nan
  | _, nan => nan
  | inf a, inf b => inf (xor a b)
  | inf a, fin b k => if k = 0 then nan else inf (xor a b)
  | fin a k, inf b => if k = 0 then nan else inf (xor a b)
  | fin a k, fin b l => roundFin (xor a b) (k * l) 1074

/-- Binary64 addition, round to nearest even. -/
def add : Double → Double → Double
  | nan, _ => nan
  | _, nan => nan
  | inf a, inf b => if a = b then inf a else nan
  | inf a, fin _ _ => inf a
  | fin _ _, inf b => inf b
  | fin a k, fin b l =>
    if a = b then roundFin a (k + l) 0
    else if l < k then roundFin a (k - l) 0
    else if k < l then roundFin b (l - k) 0
    else fin false 0

/-- The C comparison `x == y` on doubles: false whenever an operand is NaN, and
the two zeros compare equal. -/
def cmpEq : Double → Double → Bool
  | nan, _ => false
  | _, nan => false
  | inf a, inf b => a == b
  | fin a k, fin b l => (k == 0 && l == 0) || (a == b && k == l)
  | _, _ => false

/-- The double holding the integer `z` exactly (for `|z| < 2^53`). -/
def ofInt (z : Int) : Double := fin (decide (z < 0)) (z.natAbs * 2 ^ 1074)

/-- Decode a 64-bit pattern (sign, 11 exponent bits, 52 fraction bits). -/
def ofBits (b : Nat) : Double :=
  let neg : Bool := decide (b / 2 ^ 63 % 2 = 1)
  let e := b / 2 ^ 52 % 2048
  let m := b % 2 ^ 52
  if e = 2047 then (if m = 0 then inf neg else nan)
  else if e = 0 then fin neg m
  else fin neg ((2 ^ 52 + m) * 2 ^ (e - 1))

/-- True for NaN. -/
def isNaN : Double → Bool
  | nan => true
  | _ => false

/-- True for finite values (neither NaN nor an infinity). -/
def isFinite : Double → Bool
  | fin _ _ => true
  | _ => false

/-- True for `+0.0` and `-0.0`. -/
def isZero : Double → Bool
  | fin _ 0 => true
  | _ => false

/-- Unary minus: flips the sign, also of zeros and infinities. -/
def neg : Double → Double
  | nan => nan
  | inf a => inf (!a)
  | fin a k => fin (!a) k

/-- The double nearest to the natural number `n`, ties to even: the value of a
C literal such as `1e100` (`ofNat (10 ^ 100)`). -/
def ofNat (n : Nat) : Double := roundFin false (n * 2 ^ 1074) 0

/-- The C comparison `x <= y` on doubles: false whenever an operand is NaN, and
the two zeros compare equal. -/
def cmpLe : Double → Double → Bool
  | nan, _ => false
  | _, nan => false
  | inf true, _ => true
  | _, inf false => true
  | inf false, _ => false
  | _, inf true => false
  | fin true k, fin true l => decide (l ≤ k)
  | fin true _, fin false _ => true
  | fin false k, fin true l => k == 0 && l == 0
  | fin false k, fin false l => decide (k ≤ l)

/-- True for the values with a clear sign bit that are not NaN: `+0.0`, the
positive finite values and `+inf`. -/
def signClear : Double → Bool
  | fin false _ => true
  | inf false => true
  | _ => false

end Double


/-! ## The C function -/

open Double

-- Equality of results is decidable, so closed runs can be evaluated.
deriving instance DecidableEq for Except

/-- Largest value of the C type `int` (32 bits). -/
def INT_MAX : Int := 2147483647

/-- Smallest value of the C type `int` (32 bits). -/
def INT_MIN : Int := -2147483648

/-- Ways a run of the model can fail. The first two are undefined behaviour in C. -/
inductive Fault where
  | outOfBounds
  | intOverflow
  | outOfFuel
  deriving DecidableEq, Repr

/-- One array read: which array, and at which index. -/
inductive Access where
  | readV (i : Int)
  | readU (i : Int)
  deriving DecidableEq, Repr

/-- Index of a read. -/
def Access.index : Access → Int
  | readV i => i
  | readU i => i

/-- Machine state of one call: the caller's arrays behind `v` and `u`, the
parameter `n`, the locals `i` and `result`, and two ghost fields: the reads done
so far (oldest first) and the number of executions of the loop body. -/
structure Frame where
  v : List Double
  u : List Double
  n : Int
  i : Int
  result : Double
  reads : List Access
  iters : Nat
  deriving DecidableEq, Repr

/-- The C expression `a[i]` on an array whose extent is the length of the list;
an index outside the extent is a fault. -/
def readAt (a : List Double) (i : Int) : Except Fault Double :=
  if 0 ≤ i then
    match a[i.toNat]? with
    | some x => .ok x
    | none => .error .outOfBounds
  else .error .outOfBounds

/-- One pass through `for (...; i < n; i++) result += v[i]*u[i];`: test `i < n`;
when it fails the loop is left (`none`), otherwise the body and then `i++` run. -/
def iter (s : Frame) : Except Fault (Option Frame) :=
  if s.i < s.n then
    match readAt s.v s.i with
    | .error f => .error f
    | .ok a =>
      match readAt s.u s.i with
      | .error f => .error f
      | .ok b =>
        if s.i + 1 ≤ INT_MAX then
          .ok (some { s with
            i := s.i + 1
            result := add s.result (mul a b)
            reads := s.reads ++ [.readV s.i, .readU s.i]
            iters := s.iters + 1 })
        else .error .intOverflow
  else .ok none

/-- The loop, run for at most `fuel` tests of `i < n`. -/
def loop : Nat → Frame → Except Fault Frame
  | 0, _ => .error .outOfFuel
  | fuel + 1, s =>
    match iter s with
    | .error f => .error f
    | .ok none => .ok s
    | .ok (some s1) => loop fuel s1

/-- State on entry to the loop: `double result = 0.0;` and `int i = 0`. -/
def enter (v u : List Double) (n : Int) : Frame :=
  { v := v, u := u, n := n, i := 0, result := zero, reads := [], iters := 0 }

/-- The whole call, returning the final machine state. The fuel `max(n,0) + 1`
is the number of loop tests the C code performs. -/
def dot_product_run (v u : List Double) (n : Int) : Except Fault Frame :=
  loop (n.toNat + 1) (enter v u n)

/-- The function `dot_product`: the value of `return result;`. -/
def dot_product (v u : List Double) (n : Int) : Except Fault Double :=
  match dot_product_run v u n with
  | .ok s => .ok s.result
  | .error f => .error f

/-- The accumulator after `result += A[i]*B[i]`. -/
def addTerm (A B : List Double) (acc : Double) (i : Nat) : Double :=
  add acc (mul (A.getD i zero) (B.getD i zero))

/-- Follows the spec's words: the sequential left-to-right sum of `A[i]*B[i]` for
`i = 0, 1, ..., n-1`, accumulated starting from `0.0`. -/
def leftFoldSum (A B : List Double) (n : Nat) : Double :=
  (List.range n).foldl (addTerm A B) zero

/-- The reads of `k` consecutive loop bodies starting at index `j`. -/
def readsFrom : Nat → Nat → List Access
  | _, 0 => []
  | j, k + 1 => Access.readV j :: Access.readU j :: readsFrom (j + 1) k

/-- Two successive calls; the second one receives the arrays and the count as the
first one left them. -/
def callTwice (v u : List Double) (n : Int) : Except Fault (Double × Double) :=
  match dot_product_run v u n with
  | .error f => .error f
  | .ok s1 =>
    match dot_product_run s1.v s1.u s1.n with
    | .error f => .error f
    | .ok s2 => .ok (s1.result, s2.result)

/-- Follows the claim's words: the same products `A[i]*B[i]` accumulated in
right-to-left order (`i = n-1` first, `i = 0` last), starting from `0.0`. -/
def rightFoldSum (A B : List Double) (n : Nat) : Double :=
  (List.range n).reverse.foldl (addTerm A B) zero

/-- The machine states at the successive loop tests, the start state first, for at
most `fuel` tests; the list ends where the loop is left or a fault occurs. -/
def loopStates : Nat → Frame → List Frame
  | 0, _ => []
  | fuel + 1, s =>
    s :: (match iter s with
      | .ok (some s1) => loopStates fuel s1
      | _ => [])

/-! ## Lemmas about the loop -/

theorem readAt_ok (a : List Double) (j : Nat) (h : j < a.length) :
    readAt a (j : Int) = .ok (a.getD j zero) := by
  simp [readAt, List.getD, List.getElem?_eq_getElem h]

theorem iter_body (s : Frame) (j : Nat) (hi : s.i = j) (hlt : (j : Int) < s.n)
    (hmax : s.n ≤ INT_MAX) (hv : j < s.v.length) (hu : j < s.u.length) :
    iter s = .ok (some { s with
      i := (j : Int) + 1
      result := addTerm s.v s.u s.result j
      reads := s.reads ++ [Access.readV j, Access.readU j]
      iters := s.iters + 1 }) := by
  have h1 : (j : Int) + 1 ≤ INT_MAX := by omega
  simp [iter, hi, hlt, readAt_ok _ _ hv, readAt_ok _ _ hu, h1, addTerm]

theorem iter_exit (s : Frame) (h : s.n ≤ s.i) : iter s = .ok none := by
  have : ¬ s.i < s.n := by omega
  simp [iter, this]

/-- Complete description of the final state of the loop started at index `j` with
`k` elements left, for any fuel above `k`. -/
theorem loop_run (k : Nat) : ∀ (s : Frame) (j fuel : Nat), s.i = j → s.n = (j : Int) + k →
    s.n ≤ INT_MAX → j + k ≤ s.v.length → j + k ≤ s.u.length → k < fuel →
    loop fuel s = .ok { s with
      i := s.n
      result := (List.range' j k).foldl (addTerm s.v s.u) s.result
      reads := s.reads ++ readsFrom j k
      iters := s.iters + k } := by
  induction k with
  | zero =>
    intro s j fuel hi hn _ _ _ hf
    obtain ⟨f, rfl⟩ : ∃ f, fuel = f + 1 := ⟨fuel - 1, by omega⟩
    have hx : iter s = .ok none := iter_exit s (by omega)
    have hin : s.i = s.n := by omega
    cases s
    simp_all [loop, readsFrom]
  | succ k ih =>
    intro s j fuel hi hn hmax hv hu hf
    obtain ⟨f, rfl⟩ : ∃ f, fuel = f + 1 := ⟨fuel - 1, by omega⟩
    have hb := iter_body s j hi (by omega) hmax (by omega) (by omega)
    rw [loop, hb]
    simp only []
    rw [ih _ (j + 1) f (by simp) (by simp [hn]; omega) (by simpa using hmax)
      (by simpa using (by omega : j + 1 + k ≤ s.v.length))
      (by simpa using (by omega : j + 1 + k ≤ s.u.length)) (by omega)]
    simp [List.range'_succ, readsFrom, hn]
    omega

/-- Under the precondition the call returns, and this is its final state. -/
theorem dot_product_run_eq (v u : List Double) (n : Int) (h0 : 0 ≤ n) (hmax : n ≤ INT_MAX)
    (hv : n ≤ v.length) (hu : n ≤ u.length) :
    dot_product_run v u n = .ok { enter v u n with
      i := n
      result := leftFoldSum v u n.toNat
      reads := readsFrom 0 n.toNat
      iters := n.toNat } := by
  have h := loop_run n.toNat (enter v u n) 0 (n.toNat + 1) (by simp [enter])
    (by simp [enter]; omega) (by simpa [enter] using hmax)
    (by simp [enter]; omega) (by simp [enter]; omega) (by omega)
  rw [dot_product_run, h]
  simp [enter, leftFoldSum, List.range_eq_range']

/-- The frame of the loop: whatever the fuel and the start state, a run that
returns leaves the arrays and `n` as they were. -/
theorem loop_frame : ∀ (fuel : Nat) (s t : Frame), loop fuel s = .ok t →
    t.v = s.v ∧ t.u = s.u ∧ t.n = s.n := by
  intro fuel
  induction fuel with
  | zero => intro s t h; simp [loop] at h
  | succ f ih =>
    intro s t h
    rw [loop] at h
    cases hx : iter s with
    | error e => rw [hx] at h; simp at h
    | ok o =>
      rw [hx] at h
      cases o with
      | none =>
        simp at h
        subst h
        exact ⟨rfl, rfl, rfl⟩
      | some s1 =>
        simp only [] at h
        have h1 := ih s1 t h
        have h2 : s1.v = s.v ∧ s1.u = s.u ∧ s1.n = s.n := by
          unfold iter at hx
          split at hx
          · split at hx
            · simp at hx
            · split at hx
              · simp at hx
              · split at hx
                · simp at hx
                  subst hx
                  exact ⟨rfl, rfl, rfl⟩
                · simp at hx
          · simp at hx
        exact ⟨h1.1.trans h2.1, h1.2.1.trans h2.2.1, h1.2.2.trans h2.2.2⟩

theorem dot_product_run_frame (v u : List Double) (n : Int) (t : Frame)
    (h : dot_product_run v u n = .ok t) : t.v = v ∧ t.u = u ∧ t.n = n := by
  simpa [enter] using loop_frame _ _ _ h

theorem mem_readsFrom (k : Nat) : ∀ (j : Nat) (a : Access), a ∈ readsFrom j k →
    (j : Int) ≤ a.index ∧ a.index < (j : Int) + k := by
  induction k with
  | zero => intro j a h; simp [readsFrom] at h
  | succ k ih =>
    intro j a h
    simp only [readsFrom, List.mem_cons] at h
    rcases h with rfl | rfl | h
    · simp [Access.index]
    · simp [Access.index]
    · have := ih (j + 1) a h
      push_cast at this ⊢
      omega

/-! ## Lemmas about binary64 arithmetic -/

namespace Double

/-- The model against known binary64 results: `0.1 + 0.2`. -/
theorem add_tenth_fifth :
    add (ofBits 0x3FB999999999999A) (ofBits 0x3FC999999999999A) = ofBits 0x3FD3333333333334 := by
  decide

/-- The model against known binary64 results: `0.1 * 0.2`. -/
theorem mul_tenth_fifth :
    mul (ofBits 0x3FB999999999999A) (ofBits 0x3FC999999999999A) = ofBits 0x3F947AE147AE147C := by
  decide

/-- Ties go to the even neighbour: `1 + 2^-53 = 1` and `(1 + 2^-52) + 2^-53 = 1 + 2^-51`. -/
theorem add_ties_to_even :
    add (ofInt 1) (ofBits 0x3CA0000000000000) = ofInt 1 ∧
    add (ofBits 0x3FF0000000000001) (ofBits 0x3CA0000000000000) = ofBits 0x3FF0000000000002 := by
  decide

/-- Overflow and underflow: `DBL_MAX + DBL_MAX = +inf`, `DBL_MAX + 2^970 = +inf` (a
tie that rounds up), and the smallest subnormal times `0.5` is `+0.0`. -/
theorem overflow_underflow :
    add (ofBits 0x7FEFFFFFFFFFFFFF) (ofBits 0x7FEFFFFFFFFFFFFF) = inf false ∧
    add (ofBits 0x7FEFFFFFFFFFFFFF) (ofBits 0x7C90000000000000) = inf false ∧
    add (ofBits 0x7FEFFFFFFFFFFFFF) (ofBits 0x7C8FFFFFFFFFFFFF) = ofBits 0x7FEFFFFFFFFFFFFF ∧
    mul (ofBits 0x0000000000000001) (ofBits 0x3FE0000000000000) = zero := by
  decide

/-- Small integers are the expected bit patterns: `1.0`, `-1.0`, `32.0`. -/
theorem ofInt_bits :
    ofInt 1 = ofBits 0x3FF0000000000000 ∧ ofInt (-1) = ofBits 0xBFF0000000000000 ∧
    ofInt 32 = ofBits 0x4040000000000000 := by
  decide

theorem mul_comm (a b : Double) : mul a b = mul b a := by
  cases a <;> cases b <;> simp [mul, Bool.xor_comm, Nat.mul_comm]

theorem roundFin_zero (neg : Bool) (s : Nat) : roundFin neg 0 s = fin neg 0 := by
  have hb : bitLength 0 = 0 := by decide
  simp [roundFin, roundMag, hb, overflowMag]

/-- A zero times a finite value is a zero. -/
theorem mul_zero_fin (a b : Double) (ha : isZero a = true) (hb : isFinite b = true) :
    isZero (mul a b) = true := by
  cases a with
  | nan => simp [isZero] at ha
  | inf _ => simp [isZero] at ha
  | fin sa k =>
    cases b with
    | nan => simp [isFinite] at hb
    | inf _ => simp [isFinite] at hb
    | fin sb l =>
      have hk : k = 0 := by
        cases k with
        | zero => rfl
        | succ m => simp [isZero] at ha
      subst hk
      simp [mul, roundFin_zero, isZero]

/-- Adding a zero of either sign to `+0.0` gives `+0.0`. -/
theorem add_zero_isZero (a : Double) (ha : isZero a = true) : add zero a = zero := by
  cases a with
  | nan => simp [isZero] at ha
  | inf _ => simp [isZero] at ha
  | fin sa k =>
    have hk : k = 0 := by
      cases k with
      | zero => rfl
      | succ m => simp [isZero] at ha
    subst hk
    cases sa <;> simp [add, zero, roundFin_zero]

theorem cmpEq_self (r : Double) : cmpEq r r = !isNaN r := by
  cases r <;> simp [cmpEq, isNaN]

end Double

theorem foldl_addTerm_comm (A B : List Double) (l : List Nat) (r : Double) :
    l.foldl (addTerm A B) r = l.foldl (addTerm B A) r := by
  induction l generalizing r with
  | nil => rfl
  | cons x xs ih =>
    rw [List.foldl_cons, List.foldl_cons, ih]
    simp only [addTerm, Double.mul_comm (A.getD x zero)]

theorem leftFoldSum_comm (A B : List Double) (n : Nat) :
    leftFoldSum A B n = leftFoldSum B A n :=
  foldl_addTerm_comm A B _ _

theorem foldl_addTerm_zero (A B : List Double) (l : List Nat)
    (h : ∀ i ∈ l, isZero (A.getD i zero) = true ∧ isFinite (B.getD i zero) = true) :
    l.foldl (addTerm A B) zero = zero := by
  induction l with
  | nil => rfl
  | cons x xs ih =>
    have hx := h x (by simp)
    rw [List.foldl_cons]
    have : addTerm A B zero x = zero := by
      unfold addTerm
      exact Double.add_zero_isZero _ (Double.mul_zero_fin _ _ hx.1 hx.2)
    rw [this]
    exact ih (fun i hi => h i (by simp [hi]))

/-- Under the precondition the call returns the left fold. -/
theorem run_returns_leftFold (A B : List Double) (n : Int) (h0 : 0 ≤ n)
    (hmax : n ≤ INT_MAX) (hA : n ≤ A.length) (hB : n ≤ B.length) :
    dot_product A B n = .ok (leftFoldSum A B n.toNat) := by
  rw [dot_product, dot_product_run_eq A B n h0 hmax hA hB]

/-- With a negative count the loop is left at its first test. -/
theorem run_of_negative (v u : List Double) (n : Int) (hneg : n < 0) :
    dot_product_run v u n = .ok (enter v u n) := by
  have hn : n.toNat = 0 := by omega
  have hlt : ¬ (0 : Int) < n := by omega
  simp [dot_product_run, hn, loop, iter, enter, hlt]

/-- What a pass that continues the loop has done to `i` and `n`. -/
theorem iter_some (s s1 : Frame) (h : iter s = .ok (some s1)) :
    s.i < s.n ∧ s1.i = s.i + 1 ∧ s1.n = s.n := by
  unfold iter at h
  split at h
  · rename_i hlt
    split at h
    · simp at h
    · split at h
      · simp at h
      · split at h
        · simp at h
          subst h
          exact ⟨hlt, rfl, rfl⟩
        · simp at h
  · simp at h

/-- Invariant of the loop counter, for any start state and any fuel: `n` is fixed
and `i` only moves from its start value up to `n`. -/
theorem loopStates_inv : ∀ (fuel : Nat) (s t : Frame), t ∈ loopStates fuel s →
    t.n = s.n ∧ s.i ≤ t.i ∧ t.i ≤ max s.i s.n := by
  intro fuel
  induction fuel with
  | zero => intro s t h; simp [loopStates] at h
  | succ f ih =>
    intro s t h
    rw [loopStates, List.mem_cons] at h
    rcases h with rfl | h
    · exact ⟨rfl, le_refl _, le_max_left _ _⟩
    · cases hx : iter s with
      | error e => rw [hx] at h; simp at h
      | ok o =>
        rw [hx] at h
        cases o with
        | none => simp at h
        | some s1 =>
          simp only [] at h
          obtain ⟨hlt, hi, hn⟩ := iter_some s s1 hx
          obtain ⟨h1, h2, h3⟩ := ih s1 t h
          rw [hi] at h2
          rw [hi, hn] at h3
          rw [hn] at h1
          have e1 : max (s.i + 1) s.n = s.n := max_eq_right (by omega)
          have e2 : max s.i s.n = s.n := max_eq_right (by omega)
          rw [e1] at h3
          rw [e2]
          exact ⟨h1, by omega, h3⟩

/-- The state a run returns is one of the states at its loop tests. -/
theorem loop_mem_loopStates : ∀ (fuel : Nat) (s t : Frame), loop fuel s = .ok t →
    t ∈ loopStates fuel s := by
  intro fuel
  induction fuel with
  | zero => intro s t h; simp [loop] at h
  | succ f ih =>
    intro s t h
    rw [loop] at h
    rw [loopStates]
    cases hx : iter s with
    | error e => rw [hx] at h; simp at h
    | ok o =>
      rw [hx] at h
      cases o with
      | none =>
        simp at h
        subst h
        simp
      | some s1 =>
        simp only [] at h
        exact List.mem_cons_of_mem _ (ih s1 t h)

/-- Number of loop tests: one more than the number of elements left. -/
theorem loopStates_length (k : Nat) : ∀ (s : Frame) (j fuel : Nat), s.i = j →
    s.n = (j : Int) + k → s.n ≤ INT_MAX → j + k ≤ s.v.length → j + k ≤ s.u.length →
    k < fuel → (loopStates fuel s).length = k + 1 := by
  induction k with
  | zero =>
    intro s j fuel hi hn _ _ _ hf
    obtain ⟨f, rfl⟩ : ∃ f, fuel = f + 1 := ⟨fuel - 1, by omega⟩
    have hx : iter s = .ok none := iter_exit s (by omega)
    simp [loopStates, hx]
  | succ k ih =>
    intro s j fuel hi hn hmax hv hu hf
    obtain ⟨f, rfl⟩ : ∃ f, fuel = f + 1 := ⟨fuel - 1, by omega⟩
    have hb := iter_body s j hi (by omega) hmax (by omega) (by omega)
    rw [loopStates, hb]
    simp only [List.length_cons]
    rw [ih _ (j + 1) f (by simp) (by simp [hn]; omega) (by simpa using hmax)
      (by simpa using (by omega : j + 1 + k ≤ s.v.length))
      (by simpa using (by omega : j + 1 + k ≤ s.u.length)) (by omega)]

theorem foldl_addTerm_congr (A B A1 B1 : List Double) (l : List Nat) (r : Double)
    (h : ∀ i ∈ l, A.getD i zero = A1.getD i zero ∧ B.getD i zero = B1.getD i zero) :
    l.foldl (addTerm A B) r = l.foldl (addTerm A1 B1) r := by
  induction l generalizing r with
  | nil => rfl
  | cons x xs ih =>
    have hx := h x (by simp)
    rw [List.foldl_cons, List.foldl_cons, ih _ (fun i hi => h i (by simp [hi]))]
    simp only [addTerm, hx.1, hx.2]

theorem leftFoldSum_succ (A B : List Double) (k : Nat) :
    leftFoldSum A B (k + 1) = addTerm A B (leftFoldSum A B k) k := by
  simp [leftFoldSum, List.range_succ, List.foldl_append]

theorem getD_of_getElem? (A : List Double) (i : Nat) (a : Double) (h : A[i]? = some a) :
    A.getD i zero = a := by
  simp [List.getD, h]

namespace Double

theorem add_nan_right (a : Double) : add a nan = nan := by
  cases a <;> rfl

theorem eq_nan_of_isNaN (a : Double) (h : isNaN a = true) : a = nan := by
  cases a <;> simp [isNaN] at h ⊢

theorem roundFin_signClear (N s : Nat) : signClear (roundFin false N s) = true := by
  unfold roundFin
  simp only []
  split <;> rfl

/-- A square is `+0.0`, positive or `+inf`, unless the operand is NaN. -/
theorem mul_self_signClear (a : Double) (h : isNaN a = false) :
    signClear (mul a a) = true := by
  cases a with
  | nan => simp [isNaN] at h
  | inf s => simp [mul, signClear]
  | fin s k => simp [mul, roundFin_signClear]

/-- Values with a clear sign bit are closed under addition. -/
theorem add_signClear (a b : Double) (ha : signClear a = true) (hb : signClear b = true) :
    signClear (add a b) = true := by
  cases a with
  | nan => simp [signClear] at ha
  | inf sa =>
    cases sa with
    | true => simp [signClear] at ha
    | false =>
      cases b with
      | nan => simp [signClear] at hb
      | inf sb => cases sb <;> simp [signClear, add] at hb ⊢
      | fin sb l => simp [signClear, add]
  | fin sa k =>
    cases sa with
    | true => simp [signClear] at ha
    | false =>
      cases b with
      | nan => simp [signClear] at hb
      | inf sb => cases sb <;> simp [signClear, add] at hb ⊢
      | fin sb l =>
        cases sb with
        | true => simp [signClear] at hb
        | false => simp [add, roundFin_signClear]

/-- A value with a clear sign bit satisfies `0.0 <= r` and is not NaN. -/
theorem cmpLe_zero_of_signClear (r : Double) (h : signClear r = true) :
    cmpLe zero r = true ∧ isNaN r = false := by
  cases r with
  | nan => simp [signClear] at h
  | inf s => cases s <;> simp [signClear, cmpLe, zero, isNaN] at h ⊢
  | fin s k => cases s <;> simp [signClear, cmpLe, zero, isNaN] at h ⊢

/-- The double nearest to `10^100` is the known pattern of `1e100`. -/
theorem ofNat_googol : ofNat (10 ^ 100) = ofBits 0x54B249AD2594C37D := by
  decide

end Double

theorem foldl_addTerm_nan (A B : List Double) (l : List Nat) :
    l.foldl (addTerm A B) nan = nan := by
  induction l with
  | nil => rfl
  | cons x xs ih => simpa [List.foldl_cons, addTerm, add] using ih

/-- Once a product is NaN the accumulator is NaN from there on. -/
theorem foldl_addTerm_nan_of_mem (A B : List Double) (l : List Nat) (r : Double) (i : Nat)
    (hi : i ∈ l) (hnan : mul (A.getD i zero) (B.getD i zero) = nan) :
    l.foldl (addTerm A B) r = nan := by
  induction l generalizing r with
  | nil => simp at hi
  | cons x xs ih =>
    rw [List.foldl_cons]
    rcases List.mem_cons.mp hi with rfl | hmem
    · have : addTerm A B r i = nan := by
        unfold addTerm
        rw [hnan, Double.add_nan_right]
      rw [this, foldl_addTerm_nan]
    · exact ih _ hmem

theorem foldl_addTerm_self_signClear (A : List Double) (l : List Nat) (r : Double)
    (hr : signClear r = true) (h : ∀ i ∈ l, isNaN (A.getD i zero) = false) :
    signClear (l.foldl (addTerm A A) r) = true := by
  induction l generalizing r with
  | nil => simpa using hr
  | cons x xs ih =>
    rw [List.foldl_cons]
    apply ih
    · unfold addTerm
      exact Double.add_signClear _ _ hr (Double.mul_self_signClear _ (h x (by simp)))
    · exact fun i hi => h i (by simp [hi])

/-! ## The claims -/

/-- C1. For every non-negative `int` `n` and vectors `A`, `B` of length at least
`n`, `dot_product(A, B, n)` returns the left fold
`((0.0 + A[0]*B[0]) + A[1]*B[1]) + ... + A[n-1]*B[n-1]`, in that order. -/
theorem dot_product_eq_leftFoldSum (A B : List Double) (n : Int) (h0 : 0 ≤ n)
    (hmax : n ≤ INT_MAX) (hA : n ≤ A.length) (hB : n ≤ B.length) :
    dot_product A B n = .ok (leftFoldSum A B n.toNat) := by
  exact run_returns_leftFold A B n h0 hmax hA hB

theorem dot_product_eq_leftFoldSum_witness :
    (0 : Int) ≤ 2 ∧ (2 : Int) ≤ INT_MAX ∧
    dot_product [ofInt 3, ofInt 5, inf true] [ofInt 7, ofInt (-2), nan] 2
      = .ok (leftFoldSum [ofInt 3, ofInt 5, inf true] [ofInt 7, ofInt (-2), nan] (2 : Int).toNat) :=
  ⟨by decide, by decide,
    dot_product_eq_leftFoldSum _ _ 2 (by decide) (by decide) (by decide) (by decide)⟩

/-- C2. For all vectors `A`, `B`, of any length and contents,
`dot_product(A, B, 0)` returns `0.0`. -/
theorem dot_product_zero_count (A B : List Double) : dot_product A B 0 = .ok zero := rfl

/-- C3, as stated, fails: `A = [NaN]`, `B = [1.0]`, `n = 1` is a valid input, both
calls return NaN, and the C comparison `NaN == NaN` is false. -/
theorem cmpEq_comm_fails_on_nan :
    (0 : Int) ≤ 1 ∧ (1 : Int) ≤ INT_MAX ∧
    (1 : Int) ≤ [nan].length ∧ (1 : Int) ≤ [ofInt 1].length ∧
    dot_product [nan] [ofInt 1] 1 = .ok nan ∧ dot_product [ofInt 1] [nan] 1 = .ok nan ∧
    cmpEq nan nan = false := by
  decide

/-- C3, amended. For every non-negative `int` `n` and vectors `A`, `B` of length at
least `n`, `dot_product(A, B, n)` and `dot_product(B, A, n)` return the same double
`r`, and `r == r` holds exactly when `r` is not NaN. -/
theorem dot_product_comm (A B : List Double) (n : Int) (h0 : 0 ≤ n) (hmax : n ≤ INT_MAX)
    (hA : n ≤ A.length) (hB : n ≤ B.length) :
    ∃ r, dot_product A B n = .ok r ∧ dot_product B A n = .ok r ∧ cmpEq r r = !isNaN r := by
  refine ⟨leftFoldSum A B n.toNat, run_returns_leftFold A B n h0 hmax hA hB, ?_,
    Double.cmpEq_self _⟩
  rw [leftFoldSum_comm]
  exact run_returns_leftFold B A n h0 hmax hB hA

theorem dot_product_comm_witness :
    ∃ r, dot_product [ofInt 2, inf false] [ofInt (-3), ofInt 4] 2 = .ok r ∧
      dot_product [ofInt (-3), ofInt 4] [ofInt 2, inf false] 2 = .ok r ∧
      cmpEq r r = !isNaN r :=
  dot_product_comm _ _ 2 (by decide) (by decide) (by decide) (by decide)

/-- C4. Scenario 1: `A = [1.0, 2.0, 3.0]`, `B = [4.0, 5.0, 6.0]`, `n = 3` returns
exactly `32.0`. -/
theorem dot_product_scenario1 :
    dot_product [ofInt 1, ofInt 2, ofInt 3] [ofInt 4, ofInt 5, ofInt 6] 3 = .ok (ofInt 32) := by
  decide

/-- C5. Scenario 3: `A = [-1.0, 1.0]`, `B = [1.0, 1.0]`, `n = 2` returns `0.0`. -/
theorem dot_product_scenario3 :
    dot_product [ofInt (-1), ofInt 1] [ofInt 1, ofInt 1] 2 = .ok zero := by
  decide

/-- C6. For every non-negative `int` `n`, every `B` of length at least `n` whose
first `n` entries are finite and every `A` of length at least `n` whose first `n`
entries are zeros (`0.0`, and also `-0.0`), `dot_product(A, B, n)` returns `+0.0`. -/
theorem dot_product_zero_vector (A B : List Double) (n : Int) (h0 : 0 ≤ n)
    (hmax : n ≤ INT_MAX) (hA : n ≤ A.length) (hB : n ≤ B.length)
    (hzero : ∀ (i : Nat) (a : Double), (i : Int) < n → A[i]? = some a → isZero a = true)
    (hfin : ∀ (i : Nat) (b : Double), (i : Int) < n → B[i]? = some b → isFinite b = true) :
    dot_product A B n = .ok zero := by
  rw [dot_product, dot_product_run_eq A B n h0 hmax hA hB]
  simp only [leftFoldSum]
  rw [foldl_addTerm_zero]
  intro i hi
  have hin : i < n.toNat := List.mem_range.mp hi
  have hiA : i < A.length := by omega
  have hiB : i < B.length := by omega
  constructor
  · exact hzero i _ (by omega) (by simp [List.getD, List.getElem?_eq_getElem hiA])
  · exact hfin i _ (by omega) (by simp [List.getD, List.getElem?_eq_getElem hiB])

theorem dot_product_zero_vector_witness :
    dot_product [zero, zero] [ofInt 1, ofInt 1] 2 = .ok zero :=
  dot_product_zero_vector [zero, zero] [ofInt 1, ofInt 1] 2 (by decide) (by decide)
    (by decide) (by decide)
    (by
      intro i a hi h
      have hi2 : i < 2 := by omega
      interval_cases i <;> simp at h <;> subst h <;> rfl)
    (by
      intro i b hi h
      have hi2 : i < 2 := by omega
      interval_cases i <;> simp at h <;> subst h <;> rfl)

/-- C7. Calling `dot_product` twice in a row, the second time on the arrays and
count exactly as the first call left them, gives the same outcome both times: the
pair of results is `(r, r)` where `r` is the value of a single call, and the two
calls fail together when a single call fails. -/
theorem callTwice_same_result (v u : List Double) (n : Int) :
    callTwice v u n =
      match dot_product v u n with
      | .ok r => .ok (r, r)
      | .error f => .error f := by
  unfold callTwice dot_product
  cases h : dot_product_run v u n with
  | error f => rfl
  | ok s1 =>
    obtain ⟨hv, hu, hn⟩ := dot_product_run_frame v u n s1 h
    simp only [hv, hu, hn, h]

/-- C8. For every `int` `n` (negative ones included) at most the length of each
vector, the call returns and its final state holds the same `A`, the same `B` and
the same `n` as on entry. -/
theorem dot_product_inputs_unchanged (A B : List Double) (n : Int)
    (hmax : n ≤ INT_MAX) (hA : n ≤ A.length) (hB : n ≤ B.length) :
    ∃ s, dot_product_run A B n = .ok s ∧ s.v = A ∧ s.u = B ∧ s.n = n := by
  by_cases h0 : 0 ≤ n
  · rw [dot_product_run_eq A B n h0 hmax hA hB]
    exact ⟨_, rfl, rfl, rfl, rfl⟩
  · exact ⟨_, run_of_negative A B n (by omega), rfl, rfl, rfl⟩

theorem dot_product_inputs_unchanged_witness :
    ∃ s, dot_product_run [ofInt 1, ofInt 2] [ofInt 3, ofInt 4, ofInt 5] 2 = .ok s ∧
      s.v = [ofInt 1, ofInt 2] ∧ s.u = [ofInt 3, ofInt 4, ofInt 5] ∧ s.n = 2 :=
  dot_product_inputs_unchanged _ _ 2 (by decide) (by decide) (by decide)

/-- C9. For every non-negative `int` `n` and vectors `A`, `B` of length at least
`n`, the call returns (no fault, so no out-of-bounds read), and every read it made
was at an index `i` with `0 ≤ i ≤ n-1`. -/
theorem dot_product_reads_in_bounds (A B : List Double) (n : Int) (h0 : 0 ≤ n)
    (hmax : n ≤ INT_MAX) (hA : n ≤ A.length) (hB : n ≤ B.length) :
    ∃ s, dot_product_run A B n = .ok s ∧ ∀ a ∈ s.reads, 0 ≤ a.index ∧ a.index ≤ n - 1 := by
  rw [dot_product_run_eq A B n h0 hmax hA hB]
  refine ⟨_, rfl, ?_⟩
  intro a ha
  have := mem_readsFrom n.toNat 0 a ha
  constructor
  · simpa using this.1
  · have h2 := this.2
    simp only [Int.toNat_of_nonneg h0] at h2
    omega

theorem dot_product_reads_in_bounds_witness :
    ∃ s, dot_product_run [ofInt 1, ofInt 2] [ofInt 3, ofInt 4, ofInt 5] 2 = .ok s ∧
      ∀ a ∈ s.reads, 0 ≤ a.index ∧ a.index ≤ (2 : Int) - 1 :=
  dot_product_reads_in_bounds _ _ 2 (by decide) (by decide) (by decide) (by decide)

/-- C10. For every negative `n` and any vectors `A`, `B`, empty ones included, the
call returns with the loop body never executed and no element read, and the value
returned is `0.0`. -/
theorem dot_product_negative_count (A B : List Double) (n : Int) (hneg : n < 0) :
    (∃ s, dot_product_run A B n = .ok s ∧ s.iters = 0 ∧ s.reads = []) ∧
    dot_product A B n = .ok zero := by
  have hrun := run_of_negative A B n hneg
  refine ⟨⟨_, hrun, rfl, rfl⟩, ?_⟩
  rw [dot_product, hrun]
  rfl

theorem dot_product_negative_count_witness :
    (∃ s, dot_product_run [] [ofInt 1] (-5) = .ok s ∧ s.iters = 0 ∧ s.reads = []) ∧
    dot_product [] [ofInt 1] (-5) = .ok zero :=
  dot_product_negative_count [] [ofInt 1] (-5) (by decide)

/-- C11. For every non-negative `int` `n` and vectors `A`, `A1`, `B`, `B1` of length
at least `n` with `A[i] = A1[i]` and `B[i] = B1[i]` for every `i < n`, the calls
`dot_product(A, B, n)` and `dot_product(A1, B1, n)` return the same value, whatever
the lengths and the contents at indices `n` and beyond. -/
theorem dot_product_first_n_only (A A1 B B1 : List Double) (n : Int) (h0 : 0 ≤ n)
    (hmax : n ≤ INT_MAX) (hA : n ≤ A.length) (hA1 : n ≤ A1.length)
    (hB : n ≤ B.length) (hB1 : n ≤ B1.length)
    (hAeq : ∀ i : Nat, (i : Int) < n → A[i]? = A1[i]?)
    (hBeq : ∀ i : Nat, (i : Int) < n → B[i]? = B1[i]?) :
    dot_product A B n = dot_product A1 B1 n := by
  rw [run_returns_leftFold A B n h0 hmax hA hB, run_returns_leftFold A1 B1 n h0 hmax hA1 hB1]
  congr 1
  apply foldl_addTerm_congr
  intro i hi
  have hin : i < n.toNat := List.mem_range.mp hi
  constructor
  · simp [List.getD, hAeq i (by omega)]
  · simp [List.getD, hBeq i (by omega)]

theorem dot_product_first_n_only_witness :
    dot_product [ofInt 1, ofInt 2, ofInt 9] [ofInt 3, ofInt 4] 2
      = dot_product [ofInt 1, ofInt 2] [ofInt 3, ofInt 4, nan, inf true] 2 :=
  dot_product_first_n_only _ _ _ _ 2 (by decide) (by decide) (by decide) (by decide)
    (by decide) (by decide)
    (by
      intro i hi
      have hi2 : i < 2 := by omega
      interval_cases i <;> rfl)
    (by
      intro i hi
      have hi2 : i < 2 := by omega
      interval_cases i <;> rfl)

/-- C12. For every `n` up to `INT_MAX` (negative, zero or positive) and vectors of
length at least `max(n, 0)`, the call returns after exactly `max(n, 0)` executions
of the loop body and `max(n, 0) + 1` loop tests, with `i = max(n, 0)` at the end;
at every loop test `0 ≤ i ≤ max(n, 0)`, and whenever the body is entered
(`i < n`) the increment stays within the `int` range. -/
theorem dot_product_terminates (A B : List Double) (n : Int) (hmax : n ≤ INT_MAX)
    (hA : max n 0 ≤ (A.length : Int)) (hB : max n 0 ≤ (B.length : Int)) :
    (∃ s, dot_product_run A B n = .ok s ∧ s.iters = (max n 0).toNat ∧ s.i = max n 0 ∧
      s ∈ loopStates (n.toNat + 1) (enter A B n)) ∧
    (loopStates (n.toNat + 1) (enter A B n)).length = (max n 0).toNat + 1 ∧
    ∀ t ∈ loopStates (n.toNat + 1) (enter A B n),
      0 ≤ t.i ∧ t.i ≤ max n 0 ∧ (t.i < t.n → t.i + 1 ≤ INT_MAX) := by
  have hinv : ∀ t ∈ loopStates (n.toNat + 1) (enter A B n),
      0 ≤ t.i ∧ t.i ≤ max n 0 ∧ (t.i < t.n → t.i + 1 ≤ INT_MAX) := by
    intro t ht
    obtain ⟨h1, h2, h3⟩ := loopStates_inv _ _ t ht
    have e1 : (enter A B n).i = 0 := rfl
    have e2 : (enter A B n).n = n := rfl
    rw [e1] at h2
    rw [e1, e2, max_comm] at h3
    rw [e2] at h1
    refine ⟨h2, h3, ?_⟩
    intro hlt
    rw [h1] at hlt
    omega
  by_cases h0 : 0 ≤ n
  · have hm : max n 0 = n := max_eq_left h0
    rw [hm] at hA hB
    have hrun := dot_product_run_eq A B n h0 hmax hA hB
    refine ⟨⟨_, hrun, ?_, ?_, loop_mem_loopStates _ _ _ hrun⟩, ?_, hinv⟩
    · rw [hm]
    · rw [hm]
    · rw [hm]
      exact loopStates_length n.toNat (enter A B n) 0 (n.toNat + 1) (by simp [enter])
        (by simp [enter]; omega) (by simpa [enter] using hmax)
        (by simp [enter]; omega) (by simp [enter]; omega) (by omega)
  · have hm : max n 0 = 0 := max_eq_right (by omega)
    have hn : n.toNat = 0 := by omega
    have hlt : ¬ (0 : Int) < n := by omega
    have hrun := run_of_negative A B n (by omega)
    refine ⟨⟨_, hrun, ?_, ?_, loop_mem_loopStates _ _ _ hrun⟩, ?_, hinv⟩
    · rw [hm]; rfl
    · rw [hm]; rfl
    · simp [hm, hn, loopStates, iter, enter, hlt]

theorem dot_product_terminates_witness :
    (∃ s, dot_product_run [ofInt 1, ofInt 2] [ofInt 3, ofInt 4, ofInt 5] 2 = .ok s ∧
      s.iters = (max (2 : Int) 0).toNat ∧ s.i = max 2 0 ∧
      s ∈ loopStates ((2 : Int).toNat + 1)
        (enter [ofInt 1, ofInt 2] [ofInt 3, ofInt 4, ofInt 5] 2)) ∧
    (loopStates ((2 : Int).toNat + 1)
      (enter [ofInt 1, ofInt 2] [ofInt 3, ofInt 4, ofInt 5] 2)).length
        = (max (2 : Int) 0).toNat + 1 ∧
    ∀ t ∈ loopStates ((2 : Int).toNat + 1)
        (enter [ofInt 1, ofInt 2] [ofInt 3, ofInt 4, ofInt 5] 2),
      0 ≤ t.i ∧ t.i ≤ max 2 0 ∧ (t.i < t.n → t.i + 1 ≤ INT_MAX) :=
  dot_product_terminates _ _ 2 (by decide) (by decide) (by decide)

/-- C13. For every `int` `n ≥ 1` and vectors `A`, `B` of length at least `n`, if
for some index `i < n` the product `A[i]*B[i]` is NaN, then `dot_product(A, B, n)`
returns NaN. -/
theorem dot_product_nan_propagates (A B : List Double) (n : Int) (h1 : 1 ≤ n)
    (hmax : n ≤ INT_MAX) (hA : n ≤ A.length) (hB : n ≤ B.length)
    (i : Nat) (a b : Double) (hi : (i : Int) < n) (ha : A[i]? = some a) (hb : B[i]? = some b)
    (hnan : isNaN (mul a b) = true) :
    dot_product A B n = .ok nan := by
  rw [run_returns_leftFold A B n (by omega) hmax hA hB]
  congr 1
  apply foldl_addTerm_nan_of_mem A B _ _ i (List.mem_range.mpr (by omega))
  rw [getD_of_getElem? A i a ha, getD_of_getElem? B i b hb]
  exact Double.eq_nan_of_isNaN _ hnan

theorem dot_product_nan_propagates_witness :
    dot_product [ofInt 1, zero, ofInt 2] [ofInt 5, inf false, ofInt 7] 3 = .ok nan :=
  dot_product_nan_propagates _ _ 3 (by decide) (by decide) (by decide) (by decide)
    1 zero (inf false) (by decide) rfl rfl (by decide)

/-- C14. The accumulation order matters: for `A = [1.0, 1e100, -1e100]`,
`B = [1.0, 1.0, 1.0]`, `n = 3` the call returns `0.0`, while the same products
accumulated right to left from `0.0` give `1.0`. -/
theorem accumulation_order_matters :
    dot_product [ofInt 1, ofNat (10 ^ 100), neg (ofNat (10 ^ 100))]
      [ofInt 1, ofInt 1, ofInt 1] 3 = .ok zero ∧
    rightFoldSum [ofInt 1, ofNat (10 ^ 100), neg (ofNat (10 ^ 100))]
      [ofInt 1, ofInt 1, ofInt 1] 3 = ofInt 1 ∧
    dot_product [ofInt 1, ofNat (10 ^ 100), neg (ofNat (10 ^ 100))]
      [ofInt 1, ofInt 1, ofInt 1] 3
      ≠ .ok (rightFoldSum [ofInt 1, ofNat (10 ^ 100), neg (ofNat (10 ^ 100))]
        [ofInt 1, ofInt 1, ofInt 1] 3) := by
  decide

/-- C15. For every `int` `n ≥ 0` with `n + 1` still an `int` and vectors `A`, `B`
of length at least `n + 1`: `dot_product(A, B, n+1)` is `dot_product(A, B, n)` plus
`A[n]*B[n]`, with the binary64 `add` and `mul` of the loop. -/
theorem dot_product_step (A B : List Double) (n : Int) (h0 : 0 ≤ n)
    (hmax : n + 1 ≤ INT_MAX) (hA : n + 1 ≤ A.length) (hB : n + 1 ≤ B.length) :
    ∃ r a b, dot_product A B n = .ok r ∧ A[n.toNat]? = some a ∧ B[n.toNat]? = some b ∧
      dot_product A B (n + 1) = .ok (add r (mul a b)) := by
  have hiA : n.toNat < A.length := by omega
  have hiB : n.toNat < B.length := by omega
  have hs : (n + 1).toNat = n.toNat + 1 := by omega
  refine ⟨leftFoldSum A B n.toNat, A[n.toNat], B[n.toNat],
    run_returns_leftFold A B n h0 (by omega) (by omega) (by omega),
    List.getElem?_eq_getElem hiA, List.getElem?_eq_getElem hiB, ?_⟩
  rw [run_returns_leftFold A B (n + 1) (by omega) hmax hA hB, hs, leftFoldSum_succ]
  simp [addTerm, List.getD, List.getElem?_eq_getElem hiA, List.getElem?_eq_getElem hiB]

theorem dot_product_step_witness :
    ∃ r a b, dot_product [ofInt 1, ofInt 2, ofInt 3] [ofInt 4, ofInt 5, ofInt 6] 2 = .ok r ∧
      [ofInt 1, ofInt 2, ofInt 3][(2 : Int).toNat]? = some a ∧
      [ofInt 4, ofInt 5, ofInt 6][(2 : Int).toNat]? = some b ∧
      dot_product [ofInt 1, ofInt 2, ofInt 3] [ofInt 4, ofInt 5, ofInt 6] (2 + 1)
        = .ok (add r (mul a b)) :=
  dot_product_step _ _ 2 (by decide) (by decide) (by decide) (by decide)

/-- C16. For every non-negative `int` `n` and every vector `A` of length at least
`n` none of whose first `n` entries is NaN, `dot_product(A, A, n)` returns a value
`r` with `r >= 0.0` (that is `0.0 <= r`) that is not NaN; its sign bit is clear,
so it is `+0.0`, a positive finite value or `+inf`. -/
theorem dot_product_self_nonneg (A : List Double) (n : Int) (h0 : 0 ≤ n)
    (hmax : n ≤ INT_MAX) (hA : n ≤ A.length)
    (hnan : ∀ (i : Nat) (a : Double), (i : Int) < n → A[i]? = some a → isNaN a = false) :
    ∃ r, dot_product A A n = .ok r ∧ cmpLe zero r = true ∧ isNaN r = false ∧
      signClear r = true := by
  have hsc : signClear (leftFoldSum A A n.toNat) = true := by
    apply foldl_addTerm_self_signClear A (List.range n.toNat) zero rfl
    intro i hi
    have hin : i < n.toNat := List.mem_range.mp hi
    have hiA : i < A.length := by omega
    exact hnan i _ (by omega) (by simp [List.getD, List.getElem?_eq_getElem hiA])
  obtain ⟨hle, hn⟩ := Double.cmpLe_zero_of_signClear _ hsc
  exact ⟨_, run_returns_leftFold A A n h0 hmax hA hA, hle, hn, hsc⟩

theorem dot_product_self_nonneg_witness :
    ∃ r, dot_product [ofInt (-3), inf true, nan] [ofInt (-3), inf true, nan] 2 = .ok r ∧
      cmpLe zero r = true ∧ isNaN r = false ∧ signClear r = true :=
  dot_product_self_nonneg _ 2 (by decide) (by decide) (by decide)
    (by
      intro i a hi h
      have hi2 : i < 2 := by omega
      interval_cases i <;> simp at h <;> subst h <;> rfl)

end MyDot
